import Mathlib

/-!
Shallow embedding of the putio-desktop downloader (src/download.go): the
progress bitmap (`bitField`) and its operations, the worker range split and
resume adjustment performed by `DownloadFile`, the chunk-marking write loop of
`DownloadRange`, and the verification/finalization phase of `DownloadFile`.

Go `int64` arithmetic is modelled by `Int` with truncated division
(`Int.tdiv` / `Int.tmod`, which is what Go's `/` and `%` compute), and Go byte
slices by `List Nat` whose elements are byte values.
-/

namespace PutioDesktop

/-- The `ChunkSize` constant of download.go: `32 * 1024`. -/
def ChunkSize : Int := 32 * 1024

/-- The `MaxConnection` constant of download.go (number of range workers). -/
def MaxConnection : Nat := 10

/-- `divMod` from download.go; Go's `/` and `%` on `int64` truncate toward zero. -/
def divMod (a b : Int) : Int × Int := (a.tdiv b, a.tmod b)

/-- Go conversion `int64 -> uint32`: keep the low 32 bits (two's complement). -/
def uint32ofInt (x : Int) : Nat := (x % 4294967296).toNat

/-- The shift amount `7 - uint32(mod)` as Go computes it, in `uint32` arithmetic. -/
def goShiftAmt (m : Int) : Nat := uint32ofInt (7 - (uint32ofInt m : Int))

/-- The mask `byte(1) << (7 - uint32(mod))`: the shifted value is a Go `byte`,
so the result is reduced mod 256 (shift amounts of 8 or more give 0). -/
def goMask (m : Int) : Nat := (1 <<< goShiftAmt m) % 256

/-- `bitField` from download.go: a byte slice, most significant bit first. -/
abbrev bitField := List Nat

/-- `bitField.Set` from download.go: set bit `i`, bit 0 being the most
significant bit of byte 0 (`b[div] |= 1 << (7 - uint32(mod))`).  The list
update is a no-op when the byte index falls outside the slice, a case Go would
reject at run time and that no claim exercises. -/
def bitField.Set (b : bitField) (i : Int) : bitField :=
  let dm := divMod i 8
  b.set dm.1.toNat (b.getD dm.1.toNat 0 ||| goMask dm.2)

/-- `bitField.Test` from download.go: `(b[div] & (1 << (7 - uint32(mod)))) > 0`. -/
def bitField.Test (b : bitField) (i : Int) : Bool :=
  let dm := divMod i 8
  decide (0 < b.getD dm.1.toNat 0 &&& goMask dm.2)

/-- Loop body of `GetFirstZeroIndex`; the fuel argument counts the remaining
iterations of the `for pos := offset; pos < limit; pos++` loop. -/
def firstZeroGo (b : bitField) (pos : Int) : Nat → Option Int
  | 0 => none
  | n + 1 => if b.Test pos then firstZeroGo b (pos + 1) n else some pos

/-- `bitField.GetFirstZeroIndex` from download.go: scan `pos` over
`[offset, limit)` and return the first position whose bit is unset; `none`
models the `"No zero in given range"` error return. -/
def bitField.GetFirstZeroIndex (b : bitField) (offset limit : Int) : Option Int :=
  firstZeroGo b offset (limit - offset).toNat

/-- Length of the bitmap `DownloadFile` allocates:
`make([]byte, file.Size/ChunkSize/8+1)`. -/
def bitmapLen (size : Int) : Int := (size.tdiv ChunkSize).tdiv 8 + 1

/-- `rangeSize` from `DownloadFile`. -/
def rangeSize (size : Int) : Int := size.tdiv (MaxConnection : Int)

/-- `excessBytes` from `DownloadFile`. -/
def excessBytes (size : Int) : Int := size.tmod (MaxConnection : Int)

/-- The `(rangeCustomOffset, rangeCustomSize)` pair the spawn loop of
`DownloadFile` computes for worker `i` before any resume adjustment: the
offset accumulates `rangeSize` once per iteration, and the last worker's size
additionally absorbs `excessBytes`. -/
def workerRange (size : Int) (i : Nat) : Int × Int :=
  ((i : Int) * rangeSize size,
   if i = MaxConnection - 1 then rangeSize size + excessBytes size else rangeSize size)

/-- The resume adjustment of `DownloadFile` for one worker range: scan the
bitmap between `rangeCustomOffset/ChunkSize` and
`(rangeCustomOffset+rangeSize)/ChunkSize`; on `none` the worker is skipped
(modelled by returning `none`), otherwise the range start is moved to the
found chunk's first byte only when that byte lies strictly beyond the current
offset, shrinking the size by the same amount. -/
def adjustRange (chunkIndex : bitField) (rangeCustomOffset rangeSize0 rangeCustomSize : Int) :
    Option (Int × Int) :=
  let startIndex := rangeCustomOffset.tdiv ChunkSize
  let limitIndex := (rangeCustomOffset + rangeSize0).tdiv ChunkSize
  match chunkIndex.GetFirstZeroIndex startIndex limitIndex with
  | some zIndex =>
    let zByteIndex := zIndex * ChunkSize
    if zByteIndex > rangeCustomOffset then
      some (zByteIndex, rangeCustomSize - (zByteIndex - rangeCustomOffset))
    else
      some (rangeCustomOffset, rangeCustomSize)
  | none => none

/-- One iteration of the write loop of `DownloadRange`, restricted to the
state the claims concern: the write cursor `newOffset` and the shared bitmap.
`nw` is the number of bytes the iteration wrote.  After the write the loop
computes `currentIndex = newOffset/ChunkSize - 1` and sets that bit unless it
equals `lastIndex` while the cursor has not yet reached `lastByte`. -/
def markStep (lastByte lastIndex : Int) (st : Int × bitField) (nw : Int) : Int × bitField :=
  let newOffset := st.1 + nw
  let currentIndex := newOffset.tdiv ChunkSize - 1
  if currentIndex = lastIndex ∧ newOffset ≠ lastByte then
    (newOffset, st.2)
  else
    (newOffset, st.2.Set currentIndex)

/-- The write loop of `DownloadRange` over a list of write sizes, starting at
cursor `offset`, with `lastByte = offset + size` and
`lastIndex = lastByte/ChunkSize - 1` exactly as the code computes them. -/
def runWrites (offset size : Int) (b : bitField) (ws : List Int) : Int × bitField :=
  ws.foldl (markStep (offset + size) ((offset + size).tdiv ChunkSize - 1)) (offset, b)

/-- The Range header `DownloadRange` builds:
`fmt.Sprintf("bytes=%d-%d", offset, lastByte-1)` with `lastByte = offset + size`. -/
def rangeHeader (offset size : Int) : String :=
  let lastByte := offset + size
  "bytes=" ++ toString offset ++ "-" ++ toString (lastByte - 1)

/-- Outcome of the completion phase of `DownloadFile` (the code after
`rangeWg.Wait()`): `retErr` is the function's return value, `truncated`
records whether `fp.Truncate(file.Size)` ran, and `renamed` whether
`os.Rename` ran and succeeded. -/
structure FinishResult where
  retErr : Option String
  truncated : Bool
  renamed : Bool
deriving DecidableEq

/-- Completion phase of `DownloadFile`: verify with
`GetFirstZeroIndex(0, file.Size/ChunkSize)`; if a zero bit is found, return
`nil` leaving the temp file untouched; otherwise truncate to `size`, rename,
and propagate a rename failure (the environment's rename outcome is the
`renameErr` argument). -/
def downloadFinish (chunkIndex : bitField) (size : Int) (renameErr : Option String) :
    FinishResult :=
  match chunkIndex.GetFirstZeroIndex 0 (size.tdiv ChunkSize) with
  | some _ => ⟨none, false, false⟩
  | none =>
    match renameErr with
    | some e => ⟨some e, true, false⟩
    | none => ⟨none, true, true⟩

/-- Positional write `fp.WriteAt(data, off)` on a file modelled as a byte list
(the file is assumed long enough, as it is for the bitmap region of the temp
file, which is preallocated by `FillWithZeros`). -/
def writeAt (file data : List Nat) (off : Nat) : List Nat :=
  file.take off ++ data ++ file.drop (off + data.length)

/-- Positional read `fp.ReadAt` of `len` bytes at offset `off`. -/
def readAt (file : List Nat) (off len : Nat) : List Nat :=
  (file.drop off).take len

/-- Folding `bitField.Set` over a list of bit indices. -/
def setAll (b : bitField) (l : List Int) : bitField := l.foldl bitField.Set b

/-- Following the spec's words only (for comparison with the code): the total
chunk count `ceil(size/chunkSize)`. -/
def specCeilChunks (size : Int) : Int := (size + ChunkSize - 1).tdiv ChunkSize

/-- Following the spec's words only (for comparison with the code):
`bitmapByteLength = ceil(ceil(size/chunkSize)/8)`. -/
def specBitmapByteLength (size : Int) : Int := (specCeilChunks size + 7).tdiv 8

/-! ### Helper lemmas about the bit-level operations -/

lemma goMask_eq {m : Int} (h0 : 0 ≤ m) (h8 : m < 8) : goMask m = 2 ^ (7 - m.toNat) := by
  interval_cases m <;> decide

lemma and_two_pow_pos (x s : Nat) : (0 < x &&& 2 ^ s) ↔ x.testBit s = true := by
  rw [Nat.and_two_pow]
  cases h : x.testBit s <;> simp [h, Nat.pos_pow_of_pos]

lemma Test_eq (b : bitField) (i : Int) (h : 0 ≤ i) :
    b.Test i = (b.getD (i.tdiv 8).toNat 0).testBit (7 - (i.tmod 8).toNat) := by
  have h0 : 0 ≤ i.tmod 8 := Int.tmod_nonneg _ h
  have h8 : i.tmod 8 < 8 := Int.tmod_lt_of_pos i (by norm_num)
  show decide (0 < b.getD ((divMod i 8).1).toNat 0 &&& goMask ((divMod i 8).2)) = _
  rw [show (divMod i 8).1 = i.tdiv 8 from rfl, show (divMod i 8).2 = i.tmod 8 from rfl,
    goMask_eq h0 h8, Bool.eq_iff_iff]
  simp [and_two_pow_pos]

lemma Set_eq (b : bitField) (i : Int) (h : 0 ≤ i) :
    b.Set i =
      b.set (i.tdiv 8).toNat (b.getD (i.tdiv 8).toNat 0 ||| 2 ^ (7 - (i.tmod 8).toNat)) := by
  have h0 : 0 ≤ i.tmod 8 := Int.tmod_nonneg _ h
  have h8 : i.tmod 8 < 8 := Int.tmod_lt_of_pos i (by norm_num)
  show b.set ((divMod i 8).1).toNat
      (b.getD ((divMod i 8).1).toNat 0 ||| goMask ((divMod i 8).2)) = _
  rw [show (divMod i 8).1 = i.tdiv 8 from rfl, show (divMod i 8).2 = i.tmod 8 from rfl,
    goMask_eq h0 h8]

lemma bitPos_inj {i j : Int} (hi : 0 ≤ i) (hj : 0 ≤ j) (hne : j ≠ i)
    (hbyte : (i.tdiv 8).toNat = (j.tdiv 8).toNat) :
    (7 - (j.tmod 8).toNat) ≠ (7 - (i.tmod 8).toNat) := by
  have d1 := Int.tdiv_add_tmod i 8
  have d2 := Int.tdiv_add_tmod j 8
  have n1 := Int.tdiv_nonneg hi (by norm_num : (0:Int) ≤ 8)
  have n2 := Int.tdiv_nonneg hj (by norm_num : (0:Int) ≤ 8)
  have m1 : 0 ≤ i.tmod 8 := Int.tmod_nonneg _ hi
  have m2 : 0 ≤ j.tmod 8 := Int.tmod_nonneg _ hj
  have l1 : i.tmod 8 < 8 := Int.tmod_lt_of_pos i (by norm_num)
  have l2 : j.tmod 8 < 8 := Int.tmod_lt_of_pos j (by norm_num)
  omega

lemma Set_Test_ne (b : bitField) {i j : Int} (hi : 0 ≤ i) (hj : 0 ≤ j) (hne : j ≠ i) :
    (b.Set i).Test j = b.Test j := by
  rw [Set_eq b i hi, Test_eq _ j hj, Test_eq b j hj]
  by_cases hb : (i.tdiv 8).toNat = (j.tdiv 8).toNat
  · rw [← hb]
    by_cases hk : (i.tdiv 8).toNat < b.length
    · simp only [List.getD_eq_getElem?_getD, List.getElem?_set_self hk, Option.getD_some]
      rw [Nat.testBit_or, Nat.testBit_two_pow_of_ne (fun he => bitPos_inj hi hj hne hb he.symm),
        Bool.or_false]
    · rw [List.set_eq_of_length_le (Nat.le_of_not_lt hk)]
  · simp only [List.getD_eq_getElem?_getD, List.getElem?_set_ne hb]

lemma Set_Test_self (b : bitField) {i : Int} (hi : 0 ≤ i)
    (hlen : (i.tdiv 8).toNat < b.length) : (b.Set i).Test i = true := by
  rw [Set_eq b i hi, Test_eq _ i hi]
  simp only [List.getD_eq_getElem?_getD, List.getElem?_set_self hlen, Option.getD_some]
  simp [Nat.testBit_or, Nat.testBit_two_pow_self]

lemma Set_Test_mono (b : bitField) {i j : Int} (hi : 0 ≤ i) (hj : 0 ≤ j)
    (h : b.Test j = true) : (b.Set i).Test j = true := by
  by_cases hij : j = i
  · subst hij
    by_cases hk : (j.tdiv 8).toNat < b.length
    · exact Set_Test_self b hj hk
    · rw [Set_eq b j hj, List.set_eq_of_length_le (Nat.le_of_not_lt hk)]
      exact h
  · rw [Set_Test_ne b hi hj hij]
    exact h

lemma Set_length (b : bitField) (i : Int) : (b.Set i).length = b.length := by
  show (b.set _ _).length = b.length
  exact List.length_set b _ _

/-! ### Helper lemmas about the first-zero scan -/

lemma firstZeroGo_some (b : bitField) (n : Nat) :
    ∀ (pos i : Int), firstZeroGo b pos n = some i →
      pos ≤ i ∧ i < pos + n ∧ b.Test i = false ∧
        ∀ j : Int, pos ≤ j → j < i → b.Test j = true := by
  induction n with
  | zero => intro pos i h; exact absurd h (by simp [firstZeroGo])
  | succ n ih =>
    intro pos i h
    rw [firstZeroGo] at h
    by_cases ht : b.Test pos
    · rw [if_pos ht] at h
      obtain ⟨h1, h2, h3, h4⟩ := ih (pos + 1) i h
      refine ⟨by omega, by push_cast at h2 ⊢; omega, h3, ?_⟩
      intro j hj1 hj2
      rcases eq_or_lt_of_le hj1 with he | hlt
      · rw [← he]; exact ht
      · exact h4 j (by omega) hj2
    · rw [if_neg ht] at h
      obtain rfl : pos = i := by injection h
      refine ⟨le_refl _, by push_cast; omega, by simpa using ht, ?_⟩
      intro j hj1 hj2; omega

lemma firstZeroGo_none (b : bitField) (n : Nat) :
    ∀ pos : Int, (firstZeroGo b pos n = none ↔
      ∀ j : Int, pos ≤ j → j < pos + n → b.Test j = true) := by
  induction n with
  | zero => intro pos; simp [firstZeroGo]; intro j h1 h2; omega
  | succ n ih =>
    intro pos
    rw [firstZeroGo]
    by_cases ht : b.Test pos
    · rw [if_pos ht, ih (pos + 1)]
      constructor
      · intro h j hj1 hj2
        rcases eq_or_lt_of_le hj1 with he | hlt
        · rw [← he]; exact ht
        · exact h j (by omega) (by push_cast at hj2 ⊢; omega)
      · intro h j hj1 hj2
        exact h j (by omega) (by push_cast at hj2 ⊢; omega)
    · rw [if_neg ht]
      constructor
      · intro h; exact absurd h (by simp)
      · intro h; exact absurd (h pos (le_refl _) (by push_cast; omega)) ht

lemma getFirstZero_some (b : bitField) (low high i : Int)
    (h : b.GetFirstZeroIndex low high = some i) :
    low ≤ i ∧ i < high ∧ b.Test i = false ∧
      ∀ j : Int, low ≤ j → j < i → b.Test j = true := by
  obtain ⟨h1, h2, h3, h4⟩ := firstZeroGo_some b (high - low).toNat low i h
  refine ⟨h1, ?_, h3, h4⟩
  by_cases hlh : low < high
  · rw [Int.toNat_of_nonneg (by omega)] at h2; omega
  · rw [Int.toNat_of_nonpos (by omega)] at h2; omega

lemma getFirstZero_none (b : bitField) (low high : Int) :
    b.GetFirstZeroIndex low high = none ↔
      ∀ j : Int, low ≤ j → j < high → b.Test j = true := by
  rw [bitField.GetFirstZeroIndex, firstZeroGo_none]
  by_cases hlh : low < high
  · rw [Int.toNat_of_nonneg (by omega)]
    constructor <;> (intro h j h1 h2; exact h j h1 (by omega))
  · rw [Int.toNat_of_nonpos (by omega)]
    constructor
    · intro _ j h1 h2; omega
    · intro _ j h1 h2; push_cast at h2; omega

/-! ### Helper lemmas about setAll and persistence -/

lemma byteIdx_lt {j : Int} {n : Nat} (h0 : 0 ≤ j) (h : j < 8 * n) : (j.tdiv 8).toNat < n := by
  have hd := Int.tdiv_add_tmod j 8
  have m0 : 0 ≤ j.tmod 8 := Int.tmod_nonneg _ h0
  have m8 : j.tmod 8 < 8 := Int.tmod_lt_of_pos j (by norm_num)
  have d0 : 0 ≤ j.tdiv 8 := Int.tdiv_nonneg h0 (by norm_num)
  omega

lemma Test_replicate_zero (n : Nat) (i : Int) (hi : 0 ≤ i) :
    bitField.Test (List.replicate n 0) i = false := by
  rw [Test_eq _ i hi]
  have hz : (List.replicate n (0 : Nat)).getD (i.tdiv 8).toNat 0 = 0 := by
    rw [List.getD_eq_getElem?_getD, List.getElem?_replicate]
    split <;> rfl
  rw [hz, Nat.zero_testBit]

lemma setAll_length (b : bitField) (l : List Int) : (setAll b l).length = b.length := by
  induction l generalizing b with
  | nil => rfl
  | cons x xs ih =>
    rw [show setAll b (x :: xs) = setAll (b.Set x) xs from rfl, ih (b.Set x), Set_length]

lemma setAll_Test_of_not_mem (b : bitField) (l : List Int) (i : Int) (hi : 0 ≤ i)
    (hl : ∀ j ∈ l, 0 ≤ j) (hmem : i ∉ l) : (setAll b l).Test i = b.Test i := by
  induction l generalizing b with
  | nil => rfl
  | cons x xs ih =>
    have hx : 0 ≤ x := hl x (by simp)
    have hne : i ≠ x := fun he => hmem (by simp [he])
    rw [show setAll b (x :: xs) = setAll (b.Set x) xs from rfl,
      ih (b.Set x) (fun j hj => hl j (by simp [hj])) (fun hm => hmem (by simp [hm])),
      Set_Test_ne b hx hi hne]

lemma setAll_Test_mono (b : bitField) (l : List Int) (i : Int) (hi : 0 ≤ i)
    (hl : ∀ j ∈ l, 0 ≤ j) (h : b.Test i = true) : (setAll b l).Test i = true := by
  induction l generalizing b with
  | nil => exact h
  | cons x xs ih =>
    exact ih (b.Set x) (fun j hj => hl j (by simp [hj]))
      (Set_Test_mono b (hl x (by simp)) hi h)

lemma setAll_Test_of_mem (b : bitField) (l : List Int) (i : Int)
    (hl : ∀ j ∈ l, 0 ≤ j ∧ (j.tdiv 8).toNat < b.length) (hmem : i ∈ l) :
    (setAll b l).Test i = true := by
  induction l generalizing b with
  | nil => simp at hmem
  | cons x xs ih =>
    rw [show setAll b (x :: xs) = setAll (b.Set x) xs from rfl]
    rcases List.mem_cons.mp hmem with rfl | hxs
    · have hx := hl i (by simp)
      exact setAll_Test_mono (b.Set i) xs i hx.1 (fun j hj => (hl j (by simp [hj])).1)
        (Set_Test_self b hx.1 hx.2)
    · refine ih (b.Set x) (fun j hj => ⟨(hl j (by simp [hj])).1, ?_⟩) hxs
      rw [Set_length]
      exact (hl j (by simp [hj])).2

lemma readAt_writeAt (file data : List Nat) (off : Nat)
    (h : off + data.length ≤ file.length) :
    readAt (writeAt file data off) off data.length = data := by
  rw [writeAt, readAt]
  have hlen : (file.take off).length = off := by
    rw [List.length_take]; omega
  rw [List.append_assoc, List.drop_left' hlen, List.take_left' rfl]

/-! ### Helper lemmas about the worker range split -/

lemma workerRange_fst (size : Int) (i : Nat) :
    (workerRange size i).1 = (i : Int) * rangeSize size := rfl

lemma workerRange_snd_if (size : Int) (i : Nat) :
    (workerRange size i).2 =
      if i = 9 then rangeSize size + excessBytes size else rangeSize size := by
  simp only [workerRange, MaxConnection]

lemma workerRange_snd_last (size : Int) :
    (workerRange size 9).2 = rangeSize size + excessBytes size := by
  rw [workerRange_snd_if, if_pos rfl]

lemma rangeSize_nonneg {size : Int} (h : 0 ≤ size) : 0 ≤ rangeSize size :=
  Int.tdiv_nonneg h (by simp [MaxConnection])

lemma excessBytes_nonneg {size : Int} (h : 0 ≤ size) : 0 ≤ excessBytes size :=
  Int.tmod_nonneg _ h

lemma rangeSize_split (size : Int) :
    10 * rangeSize size + excessBytes size = size := by
  rw [rangeSize, excessBytes]
  have hd := Int.tdiv_add_tmod size ((MaxConnection : Nat) : Int)
  simpa [MaxConnection] using hd

lemma interval_unique {r e : Int} (hr : 0 ≤ r) {byte : Int} {i j : Nat} (hj : j ≤ 9)
    (hij : i < j)
    (h2 : byte < (i : Int) * r + (if i = 9 then r + e else r))
    (h3 : (j : Int) * r ≤ byte) : False := by
  have hi9 : i ≠ 9 := by omega
  rw [if_neg hi9] at h2
  have hle : ((i : Int) + 1) * r ≤ (j : Int) * r := by
    apply mul_le_mul_of_nonneg_right _ hr
    omega
  rw [add_mul, one_mul] at hle
  omega

lemma interval_exists {r e byte : Int} (hr : 0 ≤ r)
    (hb0 : 0 ≤ byte) (hbs : byte < 10 * r + e) :
    ∃ i : Nat, i < 10 ∧ (i : Int) * r ≤ byte ∧
      byte < (i : Int) * r + (if i = 9 then r + e else r) := by
  by_cases c9 : 9 * r ≤ byte
  · refine ⟨9, by omega, by push_cast; omega, ?_⟩
    rw [if_pos rfl]
    push_cast
    omega
  · push_neg at c9
    have hr0 : 0 < r := by omega
    have hq0 : 0 ≤ byte / r := Int.ediv_nonneg hb0 (le_of_lt hr0)
    have hq9 : byte / r < 9 := (Int.ediv_lt_iff_lt_mul hr0).mpr (by omega)
    refine ⟨(byte / r).toNat, by omega, ?_, ?_⟩
    · rw [Int.toNat_of_nonneg hq0]
      exact Int.ediv_mul_le byte hr0.ne'
    · rw [if_neg (by omega), Int.toNat_of_nonneg hq0]
      have := Int.lt_ediv_add_one_mul_self byte hr0
      rw [add_mul, one_mul] at this
      omega

/-! ### Claim theorems -/

/-- C1 counterexample: for a 1-byte file with its fresh all-zero bitmap,
the completion phase of DownloadFile finalizes (truncates and renames) even
though FirstZero over the spec's claimed range [0, ceil(size/chunkSize)) =
[0, 1) does find an unset bit, so the claimed iff is false: the code scans
only [0, size/chunkSize) with truncating division. -/
theorem c1_counterexample :
    bitmapLen 1 = 1 ∧ specCeilChunks 1 = 1 ∧
    bitField.GetFirstZeroIndex ([0] : bitField) 0 1 = some 0 ∧
    downloadFinish ([0] : bitField) 1 none = ⟨none, true, true⟩ := by decide

/-- C1 (amended): DownloadFile finalizes (truncate + rename) iff FirstZero
over [0, size/chunkSize) — truncating division, so a trailing partial chunk
is never checked — returns NotFound; when a zero bit remains in that range it
returns nil and neither truncates nor renames (and the completion phase never
writes the bitmap, so temp file and bitmap are left in their pre-verification
state). -/
theorem c1_finalization_gate (b : bitField) (size : Int) :
    (((downloadFinish b size none).truncated = true ∧
        (downloadFinish b size none).renamed = true) ↔
      b.GetFirstZeroIndex 0 (size.tdiv ChunkSize) = none) ∧
    (∀ z : Int, b.GetFirstZeroIndex 0 (size.tdiv ChunkSize) = some z →
      downloadFinish b size none = ⟨none, false, false⟩) := by
  cases h : b.GetFirstZeroIndex 0 (size.tdiv ChunkSize) with
  | none => simp [downloadFinish, h]
  | some z => simp [downloadFinish, h]

/-- C1 witness: a one-chunk file whose only chunk bit is unset: the completion
phase returns nil without truncating or renaming. -/
theorem c1_witness :
    downloadFinish ([0] : bitField) 32768 none = ⟨none, false, false⟩ :=
  (c1_finalization_gate [0] 32768).2 0 (by decide)

/-- C2 counterexample: for size 262144 = 8 * chunkSize the code allocates 2
bitmap bytes while the spec formula ceil(ceil(size/chunkSize)/8) gives 1. -/
theorem c2_counterexample :
    bitmapLen 262144 = 2 ∧ specBitmapByteLength 262144 = 1 := by decide

/-- C2 (amended): the allocated bitmap byte length is (size/chunkSize)/8 + 1
in truncating division; it exceeds the spec's ceil(ceil(size/chunkSize)/8) by
exactly one byte when 8 * chunkSize divides size (including size = 0) and
equals it otherwise. -/
theorem c2_bitmap_length (size : Int) (h : 0 ≤ size) :
    bitmapLen size =
      specBitmapByteLength size + (if (8 * ChunkSize) ∣ size then 1 else 0) := by
  have e1 : size.tdiv (32 * 1024) = size / (32 * 1024) :=
    Int.tdiv_eq_ediv h (by norm_num)
  have e2 : (size / (32 * 1024)).tdiv 8 = size / (32 * 1024) / 8 :=
    Int.tdiv_eq_ediv (Int.ediv_nonneg h (by norm_num)) (by norm_num)
  have e3 : (size + 32 * 1024 - 1).tdiv (32 * 1024) = (size + 32 * 1024 - 1) / (32 * 1024) :=
    Int.tdiv_eq_ediv (by omega) (by norm_num)
  have e4 : ((size + 32 * 1024 - 1) / (32 * 1024) + 7).tdiv 8 =
      ((size + 32 * 1024 - 1) / (32 * 1024) + 7) / 8 := by
    refine Int.tdiv_eq_ediv ?_ (by norm_num)
    have := Int.ediv_nonneg (show (0:Int) ≤ size + 32 * 1024 - 1 by omega)
      (show (0:Int) ≤ 32 * 1024 by norm_num)
    omega
  rw [bitmapLen, specBitmapByteLength, specCeilChunks, ChunkSize, e1, e2, e3, e4]
  split <;> omega

/-- C2 witness at size 5. -/
theorem c2_witness :
    bitmapLen 5 = specBitmapByteLength 5 + (if (8 * ChunkSize) ∣ (5 : Int) then 1 else 0) :=
  c2_bitmap_length 5 (by norm_num)

/-- C3: the ten worker ranges start at 0, are contiguous, the first nine have
length size/10, the last ends exactly at size and absorbs size%10, every range
lies inside [0, size), and every byte of [0, size) lies in exactly one range. -/
theorem c3_worker_partition (size : Int) (h : 0 ≤ size) :
    ((workerRange size 0).1 = 0) ∧
    (∀ i : Nat, i + 1 < MaxConnection →
       (workerRange size (i + 1)).1 = (workerRange size i).1 + (workerRange size i).2) ∧
    (∀ i : Nat, i < MaxConnection - 1 → (workerRange size i).2 = size.tdiv 10) ∧
    ((workerRange size (MaxConnection - 1)).2 = size.tdiv 10 + size.tmod 10) ∧
    ((workerRange size (MaxConnection - 1)).1 +
        (workerRange size (MaxConnection - 1)).2 = size) ∧
    (∀ i : Nat, i < MaxConnection → 0 ≤ (workerRange size i).1 ∧
       (workerRange size i).1 + (workerRange size i).2 ≤ size) ∧
    (∀ byte : Int, 0 ≤ byte → byte < size →
       ∃! i : Nat, i < MaxConnection ∧ (workerRange size i).1 ≤ byte ∧
         byte < (workerRange size i).1 + (workerRange size i).2) := by
  have hre : rangeSize size = size.tdiv 10 := by rw [rangeSize]; norm_num [MaxConnection]
  have hee : excessBytes size = size.tmod 10 := by rw [excessBytes]; norm_num [MaxConnection]
  have hr : 0 ≤ rangeSize size := rangeSize_nonneg h
  have he : 0 ≤ excessBytes size := excessBytes_nonneg h
  have h10 : 10 * rangeSize size + excessBytes size = size := rangeSize_split size
  have hM : MaxConnection = 10 := rfl
  have hM9 : MaxConnection - 1 = 9 := rfl
  refine ⟨?_, ?_, ?_, ?_, ?_, ?_, ?_⟩
  · rw [workerRange_fst]; simp
  · intro i hi
    rw [hM] at hi
    rw [workerRange_fst, workerRange_fst, workerRange_snd_if, if_neg (by omega)]
    push_cast; ring
  · intro i hi
    rw [hM] at hi
    rw [workerRange_snd_if, if_neg (by omega), hre]
  · rw [hM9, workerRange_snd_last, hre, hee]
  · rw [hM9, workerRange_fst, workerRange_snd_last]
    push_cast
    omega
  · intro i hi
    rw [hM] at hi
    rw [workerRange_fst, workerRange_snd_if]
    refine ⟨mul_nonneg (Int.natCast_nonneg i) hr, ?_⟩
    by_cases h9 : i = 9
    · subst h9; rw [if_pos rfl]; push_cast; omega
    · rw [if_neg h9]
      have hle : ((i : Int) + 1) * rangeSize size ≤ 9 * rangeSize size :=
        mul_le_mul_of_nonneg_right (by omega) hr
      rw [add_mul, one_mul] at hle
      omega
  · intro byte hb0 hbs
    have hbs' : byte < 10 * rangeSize size + excessBytes size := by omega
    obtain ⟨i, hi10, hm1, hm2⟩ := interval_exists hr hb0 hbs'
    refine ⟨i, ⟨hi10, ?_, ?_⟩, ?_⟩
    · rw [workerRange_fst]; exact hm1
    · rw [workerRange_fst, workerRange_snd_if]; exact hm2
    · rintro j ⟨hj10, hj1, hj2⟩
      rw [workerRange_fst] at hj1
      rw [workerRange_fst, workerRange_snd_if] at hj2
      have hj10' : j < 10 := hj10
      rcases lt_trichotomy i j with hlt | heq | hgt
      · exact (interval_unique hr (by omega) hlt hm2 hj1).elim
      · exact heq.symm
      · exact (interval_unique hr (by omega) hgt hj2 hm1).elim

/-- C3 witness at the spec's end-to-end size 1000000. -/
theorem c3_witness :
    (workerRange 1000000 0).1 = 0 ∧
    (workerRange 1000000 (MaxConnection - 1)).1 +
      (workerRange 1000000 (MaxConnection - 1)).2 = 1000000 :=
  ⟨(c3_worker_partition 1000000 (by norm_num)).1,
   (c3_worker_partition 1000000 (by norm_num)).2.2.2.2.1⟩

/-- C4 counterexample: worker 1 of a 327690-byte file has range offset 32769
and base range size 32769; on the all-zero bitmap the scan over chunk bounds
[1, 2) finds incomplete chunk 1, whose first byte is 32768 = 1 * chunkSize, yet
the spawned range starts at 32769 with its length unshrunk — not at the first
byte of the first incomplete chunk as the claim states. -/
theorem c4_counterexample :
    bitField.GetFirstZeroIndex ([0] : bitField) ((32769 : Int).tdiv ChunkSize)
        ((32769 + 32769 : Int).tdiv ChunkSize) = some 1 ∧
    adjustRange ([0] : bitField) 32769 32769 32769 = some (32769, 32769) ∧
    (32769 : Int) ≠ 1 * ChunkSize := by decide

/-- C4 (amended): on resume a worker range is skipped iff the scan over chunk
indices [offset/chunkSize, (offset+rangeSize)/chunkSize) — note the limit uses
the base rangeSize even for the excess-extended last range — finds no zero;
otherwise the spawned range starts at max(offset, z * chunkSize), i.e. it
shifts forward only when the first incomplete chunk's first byte lies strictly
beyond the range start, its length shrinks by exactly the forward shift, and
the adjusted range still ends at the original range's end. -/
theorem c4_resume_adjust (b : bitField) (off rs rcs : Int) :
    (adjustRange b off rs rcs = none ↔
      b.GetFirstZeroIndex (off.tdiv ChunkSize) ((off + rs).tdiv ChunkSize) = none) ∧
    (∀ z : Int,
      b.GetFirstZeroIndex (off.tdiv ChunkSize) ((off + rs).tdiv ChunkSize) = some z →
        adjustRange b off rs rcs =
          some (max off (z * ChunkSize), rcs - (max off (z * ChunkSize) - off)) ∧
        max off (z * ChunkSize) + (rcs - (max off (z * ChunkSize) - off)) = off + rcs) := by
  constructor
  · cases h : b.GetFirstZeroIndex (off.tdiv ChunkSize) ((off + rs).tdiv ChunkSize) with
    | none => simp [adjustRange, h]
    | some z =>
      simp only [adjustRange, h]
      split <;> simp
  · intro z hz
    simp only [adjustRange, hz]
    rcases lt_or_le off (z * ChunkSize) with hlt | hle
    · rw [if_pos hlt, max_eq_right hlt.le]
      exact ⟨rfl, by ring⟩
    · rw [if_neg (not_lt.mpr hle), max_eq_left hle]
      exact ⟨by simp, by ring⟩

/-- C4 witness at the counterexample's input, showing the amended form. -/
theorem c4_witness :
    adjustRange ([0] : bitField) 32769 32769 32769 =
      some (max 32769 (1 * ChunkSize), 32769 - (max 32769 (1 * ChunkSize) - 32769)) :=
  ((c4_resume_adjust [0] 32769 32769 32769).2 1 (by decide)).1

/-- C5: evaluation of the code at the failing input. For a 100000-byte file
(rangeSize 10000, fresh one-byte bitmap) the worker with assignment
(offset 40000, length 10000) lies entirely inside chunk 1 = [32768, 65536).
On completing its range (a single body read of 10000 bytes reaching cursor
50000 = lastByte) the code sets bit 0, i.e. marks chunk 0 = [0, 32768)
complete, although this worker wrote no byte of chunk 0 and chunk 0's final
byte 32767 belongs to the worker owning [30000, 40000). -/
theorem c5_bug_eval :
    rangeSize 100000 = 10000 ∧
    bitmapLen 100000 = 1 ∧
    ChunkSize ≤ 40000 ∧
    (runWrites 40000 10000 ([0] : bitField) [10000]).2.Test 0 = true ∧
    bitField.Test ([0] : bitField) 0 = false := by decide

/-- C6: GetFirstZeroIndex returns the smallest index in [low, high) whose bit
is unset, and returns the NotFound error (none) iff every bit in [low, high)
is set. -/
theorem c6_first_zero_correct (b : bitField) (low high : Int) :
    (∀ i : Int, b.GetFirstZeroIndex low high = some i →
       low ≤ i ∧ i < high ∧ b.Test i = false ∧
         ∀ j : Int, low ≤ j → j < i → b.Test j = true) ∧
    (b.GetFirstZeroIndex low high = none ↔
       ∀ j : Int, low ≤ j → j < high → b.Test j = true) :=
  ⟨fun i h => getFirstZero_some b low high i h, getFirstZero_none b low high⟩

/-- C6 witness: on bytes [255, 127] (bits 0..7 set, bit 8 unset) the scan over
[0, 16) returns 8: its bit is unset and the bit before it is set. -/
theorem c6_witness :
    bitField.Test [255, 127] 8 = false ∧ bitField.Test [255, 127] 7 = true :=
  ⟨((c6_first_zero_correct [255, 127] 0 16).1 8 (by decide)).2.2.1,
   ((c6_first_zero_correct [255, 127] 0 16).1 8 (by decide)).2.2.2 7 (by decide) (by decide)⟩

/-- C7: starting from the all-zero bitmap, after any sequence of in-range Set
calls Test is true exactly on the set indices and false on every untouched
nonnegative index; writing the backing byte array into the file at offset
`off` and reading it back reproduces the identical byte array, hence the
identical bit state. -/
theorem c7_set_test_roundtrip (n : Nat) (l : List Int) (file : List Nat) (off : Nat)
    (hl : ∀ j ∈ l, 0 ≤ j ∧ j < 8 * n) (hfile : off + n ≤ file.length) :
    (∀ i ∈ l, (setAll (List.replicate n 0) l).Test i = true) ∧
    (∀ i : Int, 0 ≤ i → i ∉ l → (setAll (List.replicate n 0) l).Test i = false) ∧
    readAt (writeAt file (setAll (List.replicate n 0) l) off) off n =
      setAll (List.replicate n 0) l := by
  have hlen : (setAll (List.replicate n 0) l).length = n := by
    rw [setAll_length, List.length_replicate]
  refine ⟨?_, ?_, ?_⟩
  · intro i hi
    refine setAll_Test_of_mem _ l i (fun j hj => ⟨(hl j hj).1, ?_⟩) hi
    rw [List.length_replicate]
    exact byteIdx_lt (hl j hj).1 (hl j hj).2
  · intro i hi0 hmem
    rw [setAll_Test_of_not_mem _ l i hi0 (fun j hj => (hl j hj).1) hmem]
    exact Test_replicate_zero n i hi0
  · have h3 := readAt_writeAt file (setAll (List.replicate n 0) l) off
      (by rw [hlen]; exact hfile)
    rw [hlen] at h3
    exact h3

/-- C7 witness: set bits 3 and 9 in a 2-byte bitmap, persist it at offset 1 of
a 4-byte file and read it back. -/
theorem c7_witness :
    (setAll (List.replicate 2 0) [3, 9]).Test 3 = true ∧
    readAt (writeAt (List.replicate 4 99) (setAll (List.replicate 2 0) [3, 9]) 1) 1 2 =
      setAll (List.replicate 2 0) [3, 9] :=
  ⟨(c7_set_test_roundtrip 2 [3, 9] (List.replicate 4 99) 1 (by decide) (by decide)).1 3
      (by decide),
   (c7_set_test_roundtrip 2 [3, 9] (List.replicate 4 99) 1 (by decide) (by decide)).2.2⟩

/-- C8: the Range header DownloadRange attaches is exactly
"bytes=<offset>-<offset+length-1>": the end bound is inclusive and equals the
assignment's last byte. -/
theorem c8_range_header (offset length : Int) (_h : 0 < length) :
    rangeHeader offset length =
      "bytes=" ++ toString offset ++ "-" ++ toString (offset + length - 1) := rfl

/-- C8 witness at offset 100, length 50. -/
theorem c8_witness :
    0 < (50 : Int) ∧
    rangeHeader 100 50 =
      "bytes=" ++ toString (100 : Int) ++ "-" ++ toString (100 + 50 - 1 : Int) :=
  ⟨by norm_num, c8_range_header 100 50 (by norm_num)⟩

/-- C9: when the bitmap verification passes and the rename fails, DownloadFile
returns exactly the rename error; in every other completion outcome (zero bit
remaining, or rename succeeding) it returns nil. -/
theorem c9_rename_error_propagation (b : bitField) (size : Int) (e : String) :
    (b.GetFirstZeroIndex 0 (size.tdiv ChunkSize) = none →
      (downloadFinish b size (some e)).retErr = some e ∧
      (downloadFinish b size none).retErr = none) ∧
    (∀ z : Int, b.GetFirstZeroIndex 0 (size.tdiv ChunkSize) = some z →
      ∀ re : Option String, (downloadFinish b size re).retErr = none) := by
  constructor
  · intro h
    simp [downloadFinish, h]
  · intro z hz re
    simp [downloadFinish, hz]

/-- C9 witness: a complete one-chunk bitmap propagates the rename error, an
incomplete one returns nil even when the environment would fail the rename. -/
theorem c9_witness :
    (downloadFinish ([255] : bitField) 32768 (some "rename failed")).retErr =
      some "rename failed" ∧
    (downloadFinish ([0] : bitField) 32768 (some "rename failed")).retErr = none :=
  ⟨((c9_rename_error_propagation [255] 32768 "rename failed").1 (by decide)).1,
   (c9_rename_error_propagation [0] 32768 "rename failed").2 0 (by decide)
     (some "rename failed")⟩

/-- C10: Set i leaves every bit other than bit i unchanged and never clears a
set bit (Test and GetFirstZeroIndex take the bitmap by value and return
without modifying it, so Set is the only mutating bitField operation). -/
theorem c10_set_frame_monotone (b : bitField) (i : Int) (hi : 0 ≤ i) :
    (∀ j : Int, 0 ≤ j → j ≠ i → (b.Set i).Test j = b.Test j) ∧
    (∀ j : Int, 0 ≤ j → b.Test j = true → (b.Set i).Test j = true) :=
  ⟨fun _ hj hne => Set_Test_ne b hi hj hne,
   fun _ hj h => Set_Test_mono b hi hj h⟩

/-- C10 witness: setting bit 1 of [128] keeps bit 9 as it was and keeps the
already-set bit 0 set. -/
theorem c10_witness :
    (bitField.Set [128] 1).Test 9 = bitField.Test [128] 9 ∧
    (bitField.Set [128] 1).Test 0 = true :=
  ⟨(c10_set_frame_monotone [128] 1 (by norm_num)).1 9 (by norm_num) (by norm_num),
   (c10_set_frame_monotone [128] 1 (by norm_num)).2 0 (by norm_num) (by decide)⟩

end PutioDesktop
